import Mathlib

/-!
Shallow embedding of `main.py` (iptv-my): a pipeline that extracts named
playlist links from a fetched README, downloads each playlist, probes every
entry URL, and partitions entries into available / unavailable outputs.

Strings are modelled as `List Char`.  Network effects are modelled by passing
the outcome of each network call explicitly (`HeadOutcome`, `NetOutcome`);
Python exceptions are modelled with `Except`.  Character classes follow the
ASCII fragment of Python's `\w` (alphanumeric or underscore) and `\s`.
-/

set_option maxRecDepth 4096

/-- Python `\s` on the ASCII range: space, tab, newline, carriage return,
vertical tab, form feed. -/
def isPySpace (c : Char) : Bool :=
  c == ' ' || c == '\t' || c == '\n' || c == '\r' ||
    c == Char.ofNat 11 || c == Char.ofNat 12

/-- Python `\w` on the ASCII range: alphanumeric or underscore. -/
def isWordChar (c : Char) : Bool :=
  c.isAlphanum || c == '_'

/-- Characters kept by `re.sub(r"[^\w\s]", "", _)` in `clean_category_name`. -/
def keepCh (c : Char) : Bool :=
  isWordChar c || isPySpace c

/-- Python `str.replace("&nbsp;", " ")`: non-overlapping left-to-right
replacement of the six-character entity by one space. -/
def replNbsp : List Char → List Char
  | '&' :: 'n' :: 'b' :: 's' :: 'p' :: ';' :: rest => ' ' :: replNbsp rest
  | c :: cs => c :: replNbsp cs
  | [] => []

/-- Drops trailing whitespace. -/
def stripEnd (l : List Char) : List Char :=
  (l.reverse.dropWhile isPySpace).reverse

/-- Python `str.strip()`: drop leading and trailing whitespace. -/
def pyStrip (l : List Char) : List Char :=
  stripEnd (l.dropWhile isPySpace)

/-- Engine of `re.sub(r"\s+", "_", _)`: each maximal whitespace run becomes a
single underscore.  The flag records whether we are inside a whitespace run. -/
def collapseAux : Bool → List Char → List Char
  | _, [] => []
  | inRun, c :: cs =>
    if isPySpace c then
      (if inRun then [] else ['_']) ++ collapseAux true cs
    else c :: collapseAux false cs

/-- Translation of `clean_category_name` from `main.py`: replace `&nbsp;` by a
space, delete characters outside `\w` and `\s`, strip, then collapse each
whitespace run to one underscore. -/
def clean_category_name (s : List Char) : List Char :=
  collapseAux false (pyStrip ((replNbsp s).filter keepCh))

/-- Splits a string into its maximal whitespace-free chunks (`cur` is the
reversed chunk being accumulated).  Used for the spec-side normalizer. -/
def wsWordsAux : List Char → List Char → List (List Char)
  | cur, [] => if cur.isEmpty then [] else [cur.reverse]
  | cur, c :: cs =>
    if isPySpace c then
      if cur.isEmpty then wsWordsAux [] cs else cur.reverse :: wsWordsAux [] cs
    else wsWordsAux (c :: cur) cs

/-- Characters kept by the spec claim's wording for the normalizer: only
alphanumeric or whitespace characters survive (underscore is deleted). -/
def specKeep (c : Char) : Bool :=
  c.isAlphanum || isPySpace c

/-- Characters kept by the amended wording: alphanumeric, underscore, or
whitespace. -/
def amendKeep (c : Char) : Bool :=
  c.isAlphanum || c == '_' || isPySpace c

/-- Normalizer following the claim's words: replace the non-breaking-space
entity with a space, remove every character that is not alphanumeric or
whitespace, then trim and join the remaining whitespace-separated words with
single underscores. -/
def specNormalize (s : List Char) : List Char :=
  List.intercalate ['_'] (wsWordsAux [] ((replNbsp s).filter specKeep))

/-- Normalizer following the amended wording: as `specNormalize` but
underscores also survive the removal step. -/
def amendNormalize (s : List Char) : List Char :=
  List.intercalate ['_'] (wsWordsAux [] ((replNbsp s).filter amendKeep))

/-- Drops the literal `pat` from the front of `s`, or fails. -/
def dropLit : List Char → List Char → Option (List Char)
  | [], s => some s
  | _ :: _, [] => none
  | p :: ps, c :: cs => if c == p then dropLit ps cs else none

/-- Python `str.startswith`. -/
def startsWithL (pat s : List Char) : Bool :=
  (dropLit pat s).isSome

/-- One playlist entry: the pending metadata line paired with a URL line. -/
structure PEntry where
  metadata : List Char
  url : List Char
deriving DecidableEq

/-- Formatting of one stored entry in `process_m3u_file`:
`f"{current_metadata}\n{line}"`. -/
def fmtEntry (e : PEntry) : List Char :=
  e.metadata ++ '\n' :: e.url

/-- One iteration of the loop in `process_m3u_file`: strip the line; an
`#EXTINF` line becomes the pending metadata; an `http` line emits an entry
(the pending metadata is NOT reset); other lines are ignored.  Returns the new
pending metadata and the emitted entry, if any. -/
def lineStep (meta line : List Char) : List Char × Option PEntry :=
  let l := pyStrip line
  if startsWithL (("#EXTINF").toList) l then (l, none)
  else if startsWithL (("http").toList) l then (meta, some ⟨meta, l⟩)
  else (meta, none)

/-- The parse of the loop in `process_m3u_file`: the ordered entries it emits,
starting from pending metadata `meta`. -/
def parseFrom (meta : List Char) : List (List Char) → List PEntry
  | [] => []
  | l :: ls =>
    match lineStep meta l with
    | (m, some e) => e :: parseFrom m ls
    | (m, none) => parseFrom m ls

/-- The partition built by the loop in `process_m3u_file`: each emitted entry
is formatted and appended to the available list when `avail` holds of its URL,
otherwise to the unavailable list. -/
def processFrom (avail : List Char → Bool) (meta : List Char) :
    List (List Char) → List (List Char) × List (List Char)
  | [] => ([], [])
  | l :: ls =>
    match lineStep meta l with
    | (m, some e) =>
      let r := processFrom avail m ls
      if avail e.url then (fmtEntry e :: r.1, r.2) else (r.1, fmtEntry e :: r.2)
    | (m, none) => processFrom avail m ls

/-- Entries parsed from a playlist text (the text is split into lines as
`readlines` does, modulo the stripped terminators). -/
def parse_playlist (text : List Char) : List PEntry :=
  parseFrom [] (text.splitOn '\n')

/-- Translation of `process_m3u_file` from `main.py`, with the availability
check abstracted as the boolean `avail`: returns the `available_links` and
`unavailable_links` lists. -/
def process_m3u_file (avail : List Char → Bool) (text : List Char) :
    List (List Char) × List (List Char) :=
  processFrom avail [] (text.splitOn '\n')

/-- Outcome of one `requests.head` call. -/
inductive HeadOutcome where
  | completed (status : Nat)
  | transportFailure
deriving DecidableEq

/-- Result classification used by the spec for a probe. -/
inductive ProbeResult where
  | Reachable
  | Unreachable
  | ProbeFailed
deriving DecidableEq

/-- Model of `requests.head(url, timeout=5)`: a completed response yields its
status code, a transport-level failure raises `RequestException`. -/
def requests_head (o : HeadOutcome) : Except Unit Nat :=
  match o with
  | .completed s => .ok s
  | .transportFailure => .error ()

/-- Translation of `check_url_availability` from `main.py`: the try-block
returns `status == 200`; the `except RequestException` handler returns
`False`.  The result is in `Except` to make "never raises" expressible. -/
def check_url_availability (o : HeadOutcome) : Except Unit Bool :=
  match requests_head o with
  | .ok s => .ok (s == 200)
  | .error _ => .ok false

/-- Spec classification of a head-request outcome (§4.4 of the spec). -/
def specProbe (o : HeadOutcome) : ProbeResult :=
  match o with
  | .completed s => if s = 200 then .Reachable else .Unreachable
  | .transportFailure => .ProbeFailed

/-- The boolean `is_available` that `process_m3u_file` obtains for a URL,
given the head-request outcome each URL would produce. -/
def availOf (oracle : List Char → HeadOutcome) (u : List Char) : Bool :=
  match check_url_availability (oracle u) with
  | .ok b => b
  | .error _ => false

/-- Matcher for the regex tail `\.m3u(?:8)?</code>`: the greedy optional `8`
is tried first.  Returns the characters it contributes to capture group 2
(`.m3u` or `.m3u8`) and the rest of the input after `</code>`. -/
def matchM3uEnd (s : List Char) : Option (List Char × List Char) :=
  match dropLit ((".m3u8</code>").toList) s with
  | some r => some ((".m3u8").toList, r)
  | none =>
    match dropLit ((".m3u</code>").toList) s with
    | some r => some ((".m3u").toList, r)
    | none => none

/-- Backtracking of the greedy `[^\s]+`: `keptRev` holds (reversed) the
characters currently consumed by the plus; splits are tried from longest to
shortest, each time requiring `\.m3u(?:8)?</code>` to match the rest.  At
least one character must stay consumed.  Returns the capture-group suffix
after `https://` and the rest of the input after the match. -/
def tryUrlSplits : List Char → List Char → Option (List Char × List Char)
  | [], _ => none
  | c :: ks, given =>
    match matchM3uEnd given with
    | some (tail, r) => some ((c :: ks).reverse ++ tail, r)
    | none => tryUrlSplits ks (c :: given)

/-- Matcher for `[^\s]+\.m3u(?:8)?</code>` at the start of `s`: the greedy
plus first takes the whole whitespace-free run, then backtracks. -/
def tryUrl (s : List Char) : Option (List Char × List Char) :=
  tryUrlSplits (s.takeWhile (fun c => !isPySpace c)).reverse
    (s.dropWhile (fun c => !isPySpace c))

/-- One attempt of `<code>(https://[^\s]+\.m3u(?:8)?)</code>` at the start of
`s`: returns capture group 2 and the rest after the match. -/
def codeAttempt (s : List Char) : Option (List Char × List Char) :=
  match dropLit (("<code>https://").toList) s with
  | none => none
  | some r =>
    match tryUrl r with
    | none => none
    | some (body, after) => some ((("https://").toList) ++ body, after)

/-- The lazy `.*?<code>(https://[^\s]+\.m3u(?:8)?)</code>`: positions are
tried left to right, and the dot does not cross a newline. -/
def matchCodePart : List Char → Option (List Char × List Char)
  | [] => none
  | c :: cs =>
    match codeAttempt (c :: cs) with
    | some res => some res
    | none => if c == '\n' then none else matchCodePart cs

/-- The lazy `(.+?)</td>` followed by the rest of the pattern: the name grows
one (non-newline) character at a time, and after each growth `</td>` plus the
code part are tried; on failure the name keeps growing (backtracking).
`accRev` is the reversed name accumulated so far.  Returns (group 1, group 2,
rest after the whole match). -/
def matchName : List Char → List Char → Option (List Char × List Char × List Char)
  | _, [] => none
  | accRev, c :: cs =>
    if c == '\n' then none
    else
      match dropLit (("</td>").toList) cs with
      | some r =>
        match matchCodePart r with
        | some (url, after) => some ((c :: accRev).reverse, url, after)
        | none => matchName (c :: accRev) cs
      | none => matchName (c :: accRev) cs

/-- Anchored attempt of the whole pattern
`<td>(.+?)</td>.*?<code>(https://[^\s]+\.m3u(?:8)?)</code>` at the start of
`s`. -/
def matchTd (s : List Char) : Option (List Char × List Char × List Char) :=
  match dropLit (("<td>").toList) s with
  | none => none
  | some r => matchName [] r

/-- Fuelled scan of `re.findall`: try the pattern at each position from left
to right; on a match, record its groups and continue right after it.  Every
step strictly shortens the input, so `s.length` fuel is enough. -/
def findallFuel : Nat → List Char → List (List Char × List Char)
  | 0, _ => []
  | _ + 1, [] => []
  | fuel + 1, c :: cs =>
    match matchTd (c :: cs) with
    | some (name, url, after) => (name, url) :: findallFuel fuel after
    | none => findallFuel fuel cs

/-- `re.findall(pattern, content)` for the extractor's pattern. -/
def re_findall (s : List Char) : List (List Char × List Char) :=
  findallFuel s.length s

/-- The matches with their names already normalized: the `(clean(name), url)`
pairs fed to the dict comprehension, in document order. -/
def cleanedPairs (content : List Char) : List (List Char × List Char) :=
  (re_findall content).map (fun p => (clean_category_name p.1, p.2))

/-- Python-dict insertion: updating an existing key overwrites its value in
place, a new key is appended (insertion order is preserved). -/
def dictUpsert (d : List (List Char × List Char)) (k v : List Char) :
    List (List Char × List Char) :=
  if d.any (fun q => q.1 == k) then
    d.map (fun q => if q.1 == k then (q.1, v) else q)
  else d ++ [(k, v)]

/-- Translation of `extract_m3u_links_with_names` from `main.py`: the dict
comprehension `{clean_category_name(name): url for name, url in matches}` as
an insertion-ordered association list. -/
def extract_m3u_links_with_names (content : List Char) :
    List (List Char × List Char) :=
  (cleanedPairs content).foldl (fun d p => dictUpsert d p.1 p.2) []

/-- Dict lookup on the association-list model. -/
def lookupD (k : List Char) (d : List (List Char × List Char)) :
    Option (List Char) :=
  (d.find? (fun q => q.1 == k)).map (fun q => q.2)

/-- First-some choice on options (used to state the fold/lookup lemma). -/
def optOr : Option (List Char) → Option (List Char) → Option (List Char)
  | some a, _ => some a
  | none, b => b

/-- Outcome of one `requests.get` call. -/
inductive NetOutcome where
  | ok (status : Nat) (body : List Char)
  | netError
deriving DecidableEq

/-- Translation of `download_m3u_file` from `main.py`: `raise_for_status`
raises for a 4xx/5xx status and the handler returns `None`; otherwise the
body is written to the file, whose content the result stands for. -/
def download_m3u_file (o : NetOutcome) : Option (List Char) :=
  match o with
  | .ok s body => if 400 ≤ s && s < 600 then none else some body
  | .netError => none

/-- How a run of `main` ends: fetch failure (`logging.error` then return),
no links found (`logging.warning` then return), or the full pipeline. -/
inductive ExitKind where
  | fatalFetch
  | nothingToDo
  | completed
deriving DecidableEq

/-- Observable outcome of `main`: how it exited, which names had a download
attempted, and which names had a processing task submitted. -/
structure RunResult where
  exit : ExitKind
  attempted : List (List Char)
  processed : List (List Char)
deriving DecidableEq

/-- Translation of `main` from `main.py`.  `readme` is the result of
`fetch_readme` (`None` on failure); `net` gives the outcome of the download
request for each `(name, url)` pair.  `if not readme_content` is a Python
falsiness test, so it also fires on an empty (successfully fetched) text. -/
def mainRun (readme : Option (List Char))
    (net : List Char × List Char → NetOutcome) : RunResult :=
  match readme with
  | none => ⟨.fatalFetch, [], []⟩
  | some content =>
    if content.isEmpty then ⟨.fatalFetch, [], []⟩
    else
      let links := extract_m3u_links_with_names content
      if links.isEmpty then ⟨.nothingToDo, [], []⟩
      else
        ⟨.completed, links.map (fun p => p.1),
          links.filterMap
            (fun p => (download_m3u_file (net p)).map (fun _ => p.1))⟩

/-- A URL is wellformed for claim C10: starts with `https://`, has no
whitespace character, and ends in `.m3u` or `.m3u8`. -/
def urlGood (u : List Char) : Prop :=
  startsWithL (("https://").toList) u = true ∧
    (∀ c ∈ u, isPySpace c = false) ∧
    ((".m3u").toList.isSuffixOf u = true ∨ (".m3u8").toList.isSuffixOf u = true)

theorem httpL_eq : ("http").toList = ['h', 't', 't', 'p'] := rfl

theorem extinfL_eq : ("#EXTINF").toList = ['#', 'E', 'X', 'T', 'I', 'N', 'F'] := rfl

/-- A line that starts with `http` does not start with `#EXTINF`. -/
theorem http_not_extinf (l : List Char)
    (h : startsWithL (("http").toList) l = true) :
    startsWithL (("#EXTINF").toList) l = false := by
  cases l with
  | nil => simp [startsWithL, httpL_eq, dropLit] at h
  | cons c cs =>
    simp only [startsWithL, httpL_eq, extinfL_eq, dropLit] at h ⊢
    by_cases hc : c == 'h'
    · have : c = 'h' := by simpa using hc
      subst this
      simp [dropLit]
    · simp [hc] at h

/-- On a line whose strip starts with `http`, the loop emits an entry carrying
the current pending metadata and leaves the pending metadata unchanged. -/
theorem lineStep_http (meta l : List Char)
    (h : startsWithL (("http").toList) (pyStrip l) = true) :
    lineStep meta l = (meta, some ⟨meta, pyStrip l⟩) := by
  have h' : startsWithL ['h', 't', 't', 'p'] (pyStrip l) = true := by
    rw [← httpL_eq]; exact h
  simp only [lineStep]
  rw [http_not_extinf _ h]
  simp [h']

/-- The partition built by the loop is exactly the filter of its parse, with
each half formatted and in parse order. -/
theorem processFrom_eq (avail : List Char → Bool) (meta : List Char)
    (ls : List (List Char)) :
    processFrom avail meta ls =
      (((parseFrom meta ls).filter (fun e => avail e.url)).map fmtEntry,
        ((parseFrom meta ls).filter (fun e => !avail e.url)).map fmtEntry) := by
  induction ls generalizing meta with
  | nil => simp [processFrom, parseFrom]
  | cons l ls ih =>
    rcases h : lineStep meta l with ⟨m, e?⟩
    cases e? with
    | none => simp [processFrom, parseFrom, h, ih]
    | some e =>
      by_cases ha : avail e.url
      · simp [processFrom, parseFrom, h, ih, List.filter_cons, ha]
      · simp [processFrom, parseFrom, h, ih, List.filter_cons, ha]

/-- C1: for every playlist text, the two partitions produced by processing it
form a stable partition of the parsed entries: together (as a multiset) they
are exactly the parsed entries, and each partition preserves parse order. -/
theorem claim_c1_stable_partition (avail : List Char → Bool) (text : List Char) :
    ((process_m3u_file avail text).1 ++ (process_m3u_file avail text).2).Perm
        ((parse_playlist text).map fmtEntry) ∧
      (process_m3u_file avail text).1.Sublist ((parse_playlist text).map fmtEntry) ∧
      (process_m3u_file avail text).2.Sublist ((parse_playlist text).map fmtEntry) := by
  unfold process_m3u_file parse_playlist
  rw [processFrom_eq]
  refine ⟨?_, ?_, ?_⟩
  · rw [← List.map_append]
    exact (List.filter_append_perm _ _).map fmtEntry
  · exact (List.filter_sublist _).map fmtEntry
  · exact (List.filter_sublist _).map fmtEntry

/-- C2 counterexample: after emitting an entry the loop keeps the pending
metadata, so a second URL line with no intervening metadata line repeats the
previous metadata instead of getting the empty string. -/
theorem claim_c2_counterexample :
    parse_playlist (("#EXTINF:-1,A\nhttp://a.test/1\nhttp://b.test/2").toList) =
      [⟨("#EXTINF:-1,A").toList, ("http://a.test/1").toList⟩,
        ⟨("#EXTINF:-1,A").toList, ("http://b.test/2").toList⟩] ∧
      (("#EXTINF:-1,A").toList : List Char) ≠ [] := by
  constructor
  · decide
  · decide

/-- C2 (amended): the parser does not reset the pending metadata when it emits
an entry; a subsequent URL line with no intervening metadata line is emitted
with the metadata of the previously emitted entry (empty only if no metadata
line was ever seen). -/
theorem claim_c2_amended (meta u₁ u₂ : List Char) (ls : List (List Char))
    (h₁ : startsWithL (("http").toList) (pyStrip u₁) = true)
    (h₂ : startsWithL (("http").toList) (pyStrip u₂) = true) :
    parseFrom meta (u₁ :: u₂ :: ls) =
      ⟨meta, pyStrip u₁⟩ :: ⟨meta, pyStrip u₂⟩ :: parseFrom meta ls := by
  simp [parseFrom, lineStep_http _ _ h₁, lineStep_http _ _ h₂]

/-- C2 amended-claim witness at a concrete playlist. -/
theorem claim_c2_amended_witness :
    parseFrom (("#EXTINF:-1,A").toList)
        [("http://a.test/1").toList, ("http://b.test/2").toList] =
      [⟨("#EXTINF:-1,A").toList, ("http://a.test/1").toList⟩,
        ⟨("#EXTINF:-1,A").toList, ("http://b.test/2").toList⟩] := by
  rw [claim_c2_amended _ _ _ _ (by decide) (by decide)]
  decide

/-- The boolean `is_available` equals "the spec classification is Reachable". -/
theorem availOf_eq (oracle : List Char → HeadOutcome) (u : List Char) :
    availOf oracle u = decide (specProbe (oracle u) = ProbeResult.Reachable) := by
  rcases h : oracle u with s | _
  · by_cases hs : s = 200 <;>
      simp [availOf, check_url_availability, requests_head, specProbe, h, hs]
  · simp [availOf, check_url_availability, requests_head, specProbe, h]

/-- Not-Reachable is the same as Unreachable-or-ProbeFailed. -/
theorem probe_not_reachable (pr : ProbeResult) :
    (!decide (pr = ProbeResult.Reachable)) =
      (decide (pr = ProbeResult.Unreachable) ||
        decide (pr = ProbeResult.ProbeFailed)) := by
  cases pr <;> simp

/-- C5: the probe never raises; a completed 200 response is classified
Reachable, any other completed status Unreachable, a transport failure
ProbeFailed; the available partition holds exactly the Reachable entries and
the unavailable partition exactly the Unreachable or ProbeFailed ones. -/
theorem claim_c5_probe_classification (o : HeadOutcome)
    (oracle : List Char → HeadOutcome) (text : List Char) :
    (∃ b, check_url_availability o = .ok b) ∧
      (check_url_availability o = .ok true ↔ specProbe o = .Reachable) ∧
      ((specProbe o = .Unreachable ∨ specProbe o = .ProbeFailed) ↔
        check_url_availability o = .ok false) ∧
      (process_m3u_file (availOf oracle) text).1 =
        ((parse_playlist text).filter
          (fun e => decide (specProbe (oracle e.url) = .Reachable))).map fmtEntry ∧
      (process_m3u_file (availOf oracle) text).2 =
        ((parse_playlist text).filter
          (fun e => decide (specProbe (oracle e.url) = .Unreachable) ||
            decide (specProbe (oracle e.url) = .ProbeFailed))).map fmtEntry := by
  refine ⟨?_, ?_, ?_, ?_, ?_⟩
  · rcases o with s | _
    · exact ⟨s == 200, rfl⟩
    · exact ⟨false, rfl⟩
  · rcases o with s | _
    · by_cases hs : s = 200 <;>
        simp [check_url_availability, requests_head, specProbe, hs]
    · simp [check_url_availability, requests_head, specProbe]
  · rcases o with s | _
    · by_cases hs : s = 200 <;>
        simp [check_url_availability, requests_head, specProbe, hs]
    · simp [check_url_availability, requests_head, specProbe]
  · unfold process_m3u_file parse_playlist
    rw [processFrom_eq]
    exact congrArg (List.map fmtEntry)
      (List.filter_congr (fun e _ => availOf_eq oracle e.url))
  · unfold process_m3u_file parse_playlist
    rw [processFrom_eq]
    refine congrArg (List.map fmtEntry) (List.filter_congr (fun e _ => ?_))
    rw [availOf_eq, probe_not_reachable]

/-- A list none of whose elements satisfy `p` is untouched by `dropWhile`. -/
theorem dropWhile_of_all_false {p : Char → Bool} :
    ∀ {m : List Char}, (∀ c ∈ m, p c = false) → m.dropWhile p = m
  | [], _ => rfl
  | c :: cs, h => by
    have hc : p c = false := h c (by simp)
    simp [List.dropWhile_cons, hc]

/-- The head of a non-nil `dropWhile` result fails the predicate. -/
theorem dropWhile_head_false {p : Char → Bool} :
    ∀ {m : List Char} {d : Char} {rest : List Char},
      m.dropWhile p = d :: rest → p d = false := by
  intro m
  induction m with
  | nil => intro d rest h; simp [List.dropWhile] at h
  | cons c cs ih =>
    intro d rest h
    rw [List.dropWhile_cons] at h
    by_cases hc : p c = true
    · rw [if_pos hc] at h; exact ih h
    · rw [if_neg hc] at h
      cases h
      simpa using hc

/-- `dropWhile` is idempotent. -/
theorem dropWhile_idem (p : Char → Bool) (l : List Char) :
    (l.dropWhile p).dropWhile p = l.dropWhile p := by
  cases h : l.dropWhile p with
  | nil => rfl
  | cons d rest =>
    rw [List.dropWhile_cons, dropWhile_head_false h]
    simp

/-- Collapse commutes with prepending a whitespace-free block. -/
theorem collapseAux_word :
    ∀ (w cs : List Char), (∀ c ∈ w, isPySpace c = false) →
      collapseAux false (w ++ cs) = w ++ collapseAux false cs
  | [], cs, _ => rfl
  | c :: w, cs, h => by
    have hc : isPySpace c = false := h c (by simp)
    have hw : ∀ x ∈ w, isPySpace x = false := fun x hx => h x (by simp [hx])
    simp [collapseAux, hc, collapseAux_word w cs hw]

/-- In-run collapse skips a whitespace block. -/
theorem collapseAux_ws_skip :
    ∀ (run cs : List Char), (∀ c ∈ run, isPySpace c = true) →
      collapseAux true (run ++ cs) = collapseAux true cs
  | [], _, _ => rfl
  | c :: run, cs, h => by
    have hc : isPySpace c = true := h c (by simp)
    have hr : ∀ x ∈ run, isPySpace x = true := fun x hx => h x (by simp [hx])
    simp [collapseAux, hc, collapseAux_ws_skip run cs hr]

/-- Collapse of a nonempty whitespace run followed by anything. -/
theorem collapseAux_ws (d : Char) (run cs : List Char)
    (h : ∀ c ∈ d :: run, isPySpace c = true) :
    collapseAux false ((d :: run) ++ cs) = '_' :: collapseAux true cs := by
  have hd : isPySpace d = true := h d (by simp)
  have hr : ∀ x ∈ run, isPySpace x = true := fun x hx => h x (by simp [hx])
  simp [collapseAux, hd, collapseAux_ws_skip run cs hr]

/-- On input with a non-whitespace head (or empty input) the run flag does not
matter. -/
theorem collapseAux_true_eq_false :
    ∀ m : List Char, (∀ c ∈ m.take 1, isPySpace c = false) →
      collapseAux true m = collapseAux false m
  | [], _ => rfl
  | c :: cs, h => by
    have hc : isPySpace c = false := h c (by simp)
    simp [collapseAux, hc]

/-- Word splitting absorbs a whitespace-free block into the accumulator. -/
theorem wsWordsAux_word :
    ∀ (w cur cs : List Char), (∀ c ∈ w, isPySpace c = false) →
      wsWordsAux cur (w ++ cs) = wsWordsAux (w.reverse ++ cur) cs
  | [], cur, cs, _ => by simp
  | c :: w, cur, cs, h => by
    have hc : isPySpace c = false := h c (by simp)
    have hw : ∀ x ∈ w, isPySpace x = false := fun x hx => h x (by simp [hx])
    simp [wsWordsAux, hc, wsWordsAux_word w (c :: cur) cs hw]

/-- A whitespace character flushes a nonempty accumulator. -/
theorem wsWordsAux_flush (cur : List Char) (d : Char) (rest : List Char)
    (hcur : cur ≠ []) (hd : isPySpace d = true) :
    wsWordsAux cur (d :: rest) = cur.reverse :: wsWordsAux [] rest := by
  have : cur.isEmpty = false := by simpa [List.isEmpty_iff] using hcur
  simp [wsWordsAux, hd, this]

/-- Leading whitespace does not change the word split. -/
theorem wsWordsAux_dropWhile :
    ∀ l : List Char, wsWordsAux [] (l.dropWhile isPySpace) = wsWordsAux [] l
  | [] => rfl
  | c :: cs => by
    by_cases hc : isPySpace c = true
    · rw [List.dropWhile_cons, if_pos hc]
      rw [wsWordsAux_dropWhile cs]
      simp [wsWordsAux, hc]
    · rw [List.dropWhile_cons, if_neg hc]

/-- A nonempty accumulator always yields at least one word. -/
theorem wsWordsAux_ne_nil :
    ∀ (t cur : List Char), cur ≠ [] → wsWordsAux cur t ≠ []
  | [], cur, h => by
    have : cur.isEmpty = false := by simpa [List.isEmpty_iff] using h
    simp [wsWordsAux, this]
  | c :: cs, cur, h => by
    have hne : cur.isEmpty = false := by simpa [List.isEmpty_iff] using h
    by_cases hc : isPySpace c = true
    · simp [wsWordsAux, hc, hne]
    · simp only [wsWordsAux, hc]
      simp only [Bool.false_eq_true, if_false]
      exact wsWordsAux_ne_nil cs (c :: cur) (by simp)

/-- Removing trailing whitespace after a block with no trailing-whitespace
interaction: if the tail keeps a nonempty core, the front block is kept
whole. -/
theorem stripEnd_append (x y : List Char) (h : stripEnd y ≠ []) :
    stripEnd (x ++ y) = x ++ stripEnd y := by
  have h' : (y.reverse.dropWhile isPySpace).isEmpty = false := by
    rcases hy : y.reverse.dropWhile isPySpace with _ | ⟨c, cs⟩
    · exact absurd (by simp [stripEnd, hy]) h
    · simp
  simp only [stripEnd, List.reverse_append, List.dropWhile_append, h', if_false,
    Bool.false_eq_true, List.reverse_append, List.reverse_reverse]

/-- `stripEnd` keeps a non-whitespace head. -/
theorem stripEnd_ne_nil (e : Char) (t : List Char) (he : isPySpace e = false) :
    stripEnd (e :: t) ≠ [] := by
  intro h
  have h' : (e :: t).reverse.dropWhile isPySpace = [] := by
    have := congrArg List.reverse h
    simpa [stripEnd] using this
  rw [List.dropWhile_eq_nil_iff] at h'
  have := h' e (by simp)
  rw [he] at this
  exact Bool.false_ne_true this

/-- `stripEnd` is a prefix, so it keeps the head element when nonempty. -/
theorem stripEnd_cons (e : Char) (t : List Char) :
    stripEnd (e :: t) = [] ∨ ∃ t', stripEnd (e :: t) = e :: t' := by
  have hpre : stripEnd (e :: t) <+: (e :: t) := by
    have : (e :: t).reverse.dropWhile isPySpace <:+ (e :: t).reverse :=
      List.dropWhile_suffix _
    have := List.reverse_prefix.mpr this
    simpa [stripEnd] using this
  rcases hs : stripEnd (e :: t) with _ | ⟨c, t'⟩
  · exact Or.inl rfl
  · rw [hs] at hpre
    rcases List.cons_prefix_cons.mp hpre with ⟨rfl, _⟩
    exact Or.inr ⟨t', rfl⟩

/-- Intercalation over a two-or-more word list. -/
theorem intercalate_cons_ne (x : List Char) (ys : List (List Char))
    (h : ys ≠ []) :
    List.intercalate ['_'] (x :: ys) = x ++ '_' :: List.intercalate ['_'] ys := by
  rcases ys with _ | ⟨y, t⟩
  · exact absurd rfl h
  · simp [List.intercalate, List.intersperse]

/-- Trim-then-collapse equals joining the whitespace-separated words with
underscores, for inputs with no leading whitespace (strong induction on
length). -/
theorem collapse_words :
    ∀ (n : Nat) (l : List Char), l.length ≤ n → l.dropWhile isPySpace = l →
      collapseAux false (stripEnd l) = List.intercalate ['_'] (wsWordsAux [] l) := by
  intro n
  induction n with
  | zero =>
    intro l hlen _
    have : l = [] := List.length_eq_zero.mp (Nat.le_zero.mp hlen)
    subst this
    rfl
  | succ n ih =>
    intro l hlen hC
    rcases l with _ | ⟨c, t⟩
    · rfl
    · have hc : isPySpace c = false := by
        by_contra hcc
        have hcc' : isPySpace c = true := by
          cases h' : isPySpace c
          · exact absurd h' hcc
          · rfl
        rw [List.dropWhile_cons, if_pos hcc'] at hC
        have h1 : (t.dropWhile isPySpace).length ≤ t.length :=
          (List.dropWhile_sublist _).length_le
        rw [hC] at h1
        simp at h1
      set w := (c :: t).takeWhile (fun x => !isPySpace x) with hw
      set r := (c :: t).dropWhile (fun x => !isPySpace x) with hr
      have hlr : w ++ r = c :: t := List.takeWhile_append_dropWhile _ _
      have hwmem : ∀ x ∈ w, isPySpace x = false := by
        intro x hx
        have := List.mem_takeWhile_imp hx
        simpa using this
      have hwne : w ≠ [] := by
        rw [hw, List.takeWhile_cons, if_pos (by simp [hc])]
        simp
      rcases hrc : r with _ | ⟨d, rest⟩
      · -- no whitespace at all: the line is a single word
        rw [hrc, List.append_nil] at hlr
        rw [← hlr]
        have hstrip : stripEnd w = w := by
          have : ∀ x ∈ w.reverse, isPySpace x = false := by
            intro x hx; exact hwmem x (List.mem_reverse.mp hx)
          simp [stripEnd, dropWhile_of_all_false this]
        rw [hstrip]
        have hcol : collapseAux false w = w := by
          have h0 := collapseAux_word w [] hwmem
          simpa [collapseAux] using h0
        rw [hcol]
        have hww := wsWordsAux_word w [] [] hwmem
        simp only [List.append_nil] at hww
        rw [hww]
        have hrevne : w.reverse ≠ [] := by simpa using hwne
        have hie : w.reverse.isEmpty = false := by
          simpa [List.isEmpty_iff] using hrevne
        simp [wsWordsAux, hie, List.intercalate]
      · have hd : isPySpace d = true := by
          have := dropWhile_head_false (p := fun x => !isPySpace x) hrc
          simpa using this
        -- split the whitespace run off r
        set r2 := r.dropWhile isPySpace with hr2
        set run := r.takeWhile isPySpace with hrun
        have hrr : run ++ r2 = r := List.takeWhile_append_dropWhile _ _
        have hrunmem : ∀ x ∈ run, isPySpace x = true := by
          intro x hx; exact List.mem_takeWhile_imp hx
        have hrunne : run ≠ [] := by
          rw [hrun, hrc, List.takeWhile_cons, if_pos hd]
          simp
        have hr2C : r2.dropWhile isPySpace = r2 := by
          rw [hr2]; exact dropWhile_idem _ _
        have hr2len : r2.length ≤ n := by
          have h1 : r2.length ≤ rest.length := by
            rw [hr2, hrc, List.dropWhile_cons, if_pos hd]
            exact (List.dropWhile_sublist _).length_le
          have h2 : w.length + (d :: rest).length = (c :: t).length := by
            rw [← hlr, hrc]; simp
          have h3 : 1 ≤ w.length := by
            rcases w with _ | _
            · exact absurd rfl hwne
            · simp
          simp only [List.length_cons] at h2 hlen
          omega
        have IH := ih r2 hr2len hr2C
        have hl : (c :: t) = (w ++ run) ++ r2 := by
          rw [List.append_assoc, hrr, hlr]
        rcases hr2c : r2 with _ | ⟨e, t2⟩
        · -- trailing whitespace only: stripEnd removes r entirely
          rw [hr2c, List.append_nil] at hl
          rw [hl]
          have hstrip : stripEnd (w ++ run) = w := by
            have hrev : (w ++ run).reverse = run.reverse ++ w.reverse :=
              List.reverse_append _ _
            have hrune : run.reverse.dropWhile isPySpace = [] := by
              rw [List.dropWhile_eq_nil_iff]
              intro x hx; exact hrunmem x (List.mem_reverse.mp hx)
            have hwrev : w.reverse.dropWhile isPySpace = w.reverse :=
              dropWhile_of_all_false
                (fun x hx => hwmem x (List.mem_reverse.mp hx))
            simp [stripEnd, hrev, List.dropWhile_append, hrune, hwrev]
          rw [hstrip]
          have hcol : collapseAux false w = w := by
            have h0 := collapseAux_word w [] hwmem
            simpa [collapseAux] using h0
          rw [hcol]
          rw [wsWordsAux_word w [] run hwmem]
          rcases hrunc : run with _ | ⟨d', run'⟩
          · exact absurd hrunc hrunne
          · have hd' : isPySpace d' = true := hrunmem d' (by rw [hrunc]; simp)
            rw [wsWordsAux_flush _ _ _ (by simpa using hwne) hd']
            have hrun' : ∀ x ∈ run', isPySpace x = true := by
              intro x hx; exact hrunmem x (by rw [hrunc]; simp [hx])
            have : wsWordsAux [] run' = [] := by
              rw [← wsWordsAux_dropWhile run']
              rw [List.dropWhile_eq_nil_iff.mpr hrun']
              rfl
            rw [this]
            simp [List.intercalate]
        · -- a further word follows the whitespace run
          have he : isPySpace e = false := by
            have := dropWhile_head_false (m := r) (by rw [← hr2, hr2c])
            exact this
          have hseN : stripEnd r2 ≠ [] := by
            rw [hr2c]; exact stripEnd_ne_nil e t2 he
          rcases hrunc : run with _ | ⟨d', run'⟩
          · exact absurd hrunc hrunne
          have hrun'mem : ∀ x ∈ d' :: run', isPySpace x = true := by
            rw [← hrunc]; exact hrunmem
          have hd'2 : isPySpace d' = true := hrun'mem d' (by simp)
          have hrun'2 : ∀ x ∈ run', isPySpace x = true := by
            intro x hx; exact hrun'mem x (by simp [hx])
          have hcolT : collapseAux true (stripEnd r2) =
              collapseAux false (stripEnd r2) := by
            rcases stripEnd_cons e t2 with hnil | ⟨t', ht'⟩
            · rw [← hr2c] at hnil; exact absurd hnil hseN
            · rw [hr2c, ht']
              exact collapseAux_true_eq_false (e :: t') (by simpa using he)
          have hwords_ne : wsWordsAux [] r2 ≠ [] := by
            rw [hr2c]
            have h1 : wsWordsAux [] (e :: t2) = wsWordsAux [e] t2 := by
              simp [wsWordsAux, he]
            rw [h1]
            exact wsWordsAux_ne_nil t2 [e] (by simp)
          have hLHS : collapseAux false (stripEnd (c :: t)) =
              w ++ '_' :: List.intercalate ['_'] (wsWordsAux [] r2) := by
            rw [hl, stripEnd_append _ _ hseN, List.append_assoc,
              collapseAux_word w _ hwmem, hrunc, collapseAux_ws d' run' _ hrun'mem,
              hcolT, IH]
          have hstep : wsWordsAux [] (run' ++ r2) = wsWordsAux [] r2 := by
            have hdrop : (run' ++ r2).dropWhile isPySpace = r2 := by
              rw [List.dropWhile_append]
              rw [List.dropWhile_eq_nil_iff.mpr hrun'2]
              simp [hr2C]
            calc wsWordsAux [] (run' ++ r2)
                = wsWordsAux [] ((run' ++ r2).dropWhile isPySpace) :=
                  (wsWordsAux_dropWhile _).symm
              _ = wsWordsAux [] r2 := by rw [hdrop]
          have hRHS : List.intercalate ['_'] (wsWordsAux [] (c :: t)) =
              w ++ '_' :: List.intercalate ['_'] (wsWordsAux [] r2) := by
            conv_lhs => rw [hl]
            rw [List.append_assoc, wsWordsAux_word w [] _ hwmem]
            simp only [List.append_nil]
            rw [hrunc, List.cons_append]
            rw [wsWordsAux_flush _ _ _ (by simpa using hwne) hd'2]
            rw [List.reverse_reverse, hstep]
            rw [intercalate_cons_ne _ _ hwords_ne]
          rw [hLHS, hRHS]

/-- The code's removal predicate coincides with the amended wording's one. -/
theorem keepCh_eq_amendKeep (c : Char) : keepCh c = amendKeep c := by
  simp [keepCh, amendKeep, isWordChar, Bool.or_assoc]

/-- `clean_category_name` computes the amended-spec normalizer. -/
theorem clean_eq_amendNormalize (s : List Char) :
    clean_category_name s = amendNormalize s := by
  unfold clean_category_name amendNormalize pyStrip
  rw [List.filter_congr (fun c _ => keepCh_eq_amendKeep c)]
  rw [collapse_words ((((replNbsp s).filter amendKeep).dropWhile isPySpace).length)
    _ le_rfl (dropWhile_idem _ _)]
  rw [wsWordsAux_dropWhile]

/-- Every character the collapse emits is an underscore or a non-whitespace
character of its input. -/
theorem collapseAux_mem :
    ∀ (b : Bool) (l : List Char) (c : Char),
      c ∈ collapseAux b l → c = '_' ∨ (c ∈ l ∧ isPySpace c = false) := by
  intro b l
  induction l generalizing b with
  | nil => intro c hc; simp [collapseAux] at hc
  | cons d cs ih =>
    intro c hc
    by_cases hd : isPySpace d = true
    · rw [show collapseAux b (d :: cs) =
          (if b then [] else ['_']) ++ collapseAux true cs from by
            simp [collapseAux, hd]] at hc
      rcases List.mem_append.mp hc with h1 | h1
      · left
        cases b
        · simpa using h1
        · simp at h1
      · rcases ih true c h1 with h2 | ⟨h2, h3⟩
        · exact Or.inl h2
        · exact Or.inr ⟨by simp [h2], h3⟩
    · have hd' : isPySpace d = false := by
        cases hdd : isPySpace d
        · rfl
        · exact absurd hdd hd
      rw [show collapseAux b (d :: cs) = d :: collapseAux false cs from by
        simp [collapseAux, hd']] at hc
      rcases List.mem_cons.mp hc with h1 | h1
      · subst h1; exact Or.inr ⟨by simp, hd'⟩
      · rcases ih false c h1 with h2 | ⟨h2, h3⟩
        · exact Or.inl h2
        · exact Or.inr ⟨by simp [h2], h3⟩

/-- Membership in the strip is membership in the original. -/
theorem pyStrip_mem {c : Char} {l : List Char} (h : c ∈ pyStrip l) : c ∈ l := by
  unfold pyStrip stripEnd at h
  have h1 := List.mem_reverse.mp h
  have h2 : c ∈ (l.dropWhile isPySpace).reverse :=
    (List.dropWhile_sublist _).subset h1
  have h3 := List.mem_reverse.mp h2
  exact (List.dropWhile_sublist _).subset h3

/-- A word character is not whitespace. -/
theorem word_not_space (c : Char) (h : isWordChar c = true) :
    isPySpace c = false := by
  cases hs : isPySpace c
  · rfl
  · exfalso
    simp [isPySpace] at hs
    rcases hs with ((((h1 | h1) | h1) | h1) | h1) | h1 <;>
      (subst h1; revert h; decide)

/-- Everything `clean_category_name` outputs is a word character. -/
theorem clean_all_word (s : List Char) :
    ∀ c ∈ clean_category_name s, isWordChar c = true := by
  intro c hc
  unfold clean_category_name at hc
  rcases collapseAux_mem false _ c hc with h1 | ⟨h1, h2⟩
  · subst h1; decide
  · have h3 := pyStrip_mem h1
    have h4 := List.of_mem_filter h3
    simp [keepCh, h2] at h4
    exact h4

/-- On a head other than the ampersand the replacement just walks past. -/
theorem replNbsp_cons_ne_amp (c : Char) (cs : List Char) (h : c ≠ '&') :
    replNbsp (c :: cs) = c :: replNbsp cs := by
  conv_lhs => rw [replNbsp.eq_def]
  split
  · rename_i rest heq
    injection heq with h1 h2
    exact absurd h1 h
  · rename_i c' cs' hnot heq
    injection heq with h1 h2
    rw [h1, h2]
  · rename_i heq
    cases heq

/-- Ampersand-free strings are untouched by the entity replacement. -/
theorem replNbsp_no_amp :
    ∀ m : List Char, (∀ c ∈ m, isWordChar c = true) → replNbsp m = m := by
  intro m
  induction m with
  | nil => intro _; rfl
  | cons c cs ih =>
    intro h
    have hc : isWordChar c = true := h c (by simp)
    have hcs : ∀ x ∈ cs, isWordChar x = true := fun x hx => h x (by simp [hx])
    have hamp : c ≠ '&' := by
      intro hEq
      rw [hEq] at hc
      exact absurd hc (by decide)
    rw [replNbsp_cons_ne_amp c cs hamp, ih hcs]

/-- Whitespace-free strings are untouched by the strip. -/
theorem pyStrip_of_no_ws (m : List Char)
    (h : ∀ c ∈ m, isPySpace c = false) : pyStrip m = m := by
  unfold pyStrip stripEnd
  rw [dropWhile_of_all_false h]
  rw [dropWhile_of_all_false (fun c hc => h c (List.mem_reverse.mp hc))]
  simp

/-- C9: the name normalizer is idempotent. -/
theorem claim_c9_idempotent (s : List Char) :
    clean_category_name (clean_category_name s) = clean_category_name s := by
  have hword := clean_all_word s
  have hnosp : ∀ c ∈ clean_category_name s, isPySpace c = false :=
    fun c hc => word_not_space c (hword c hc)
  set m := clean_category_name s with hm
  show clean_category_name m = m
  unfold clean_category_name
  rw [replNbsp_no_amp m hword]
  rw [List.filter_eq_self.mpr (fun c hc => by simp [keepCh, hword c hc])]
  rw [pyStrip_of_no_ws m hnosp]
  have h0 := collapseAux_word m [] hnosp
  simpa [collapseAux] using h0

/-- C3 counterexample: Python's removal step keeps the underscore (it is a
word character), while the claim demands every non-alphanumeric,
non-whitespace character - in particular the underscore - be removed. -/
theorem claim_c3_counterexample :
    clean_category_name (("a_b").toList) = ("a_b").toList ∧
      specNormalize (("a_b").toList) = ("ab").toList ∧
      clean_category_name (("a_b").toList) ≠ specNormalize (("a_b").toList) := by
  refine ⟨by decide, by decide, by decide⟩

/-- C3 (amended): normalize first replaces the non-breaking-space entity with
a space, then removes every character that is not alphanumeric, underscore,
or whitespace (underscores present in the input are kept), then trims and
collapses each internal whitespace run to a single underscore; the example
value is unchanged. -/
theorem claim_c3_amended :
    (∀ s, clean_category_name s = amendNormalize s) ∧
      clean_category_name ((" Some &nbsp; Name! ").toList) =
        ("Some_Name").toList := by
  refine ⟨clean_eq_amendNormalize, by decide⟩

/-- Dict-update lookup: updating key `k'` overwrites its binding and leaves
every other key's binding alone. -/
theorem lookupD_upsert (d : List (List Char × List Char)) (k' v k : List Char) :
    lookupD k (dictUpsert d k' v) =
      if (k' == k) then some v else lookupD k d := by
  unfold dictUpsert lookupD
  by_cases ha : d.any (fun q => q.1 == k') = true
  · rw [if_pos ha]
    have hcomp : ((fun q : List Char × List Char => q.1 == k) ∘
        (fun q : List Char × List Char => if q.1 == k' then (q.1, v) else q)) =
        (fun q : List Char × List Char => q.1 == k) := by
      funext q
      by_cases hq : (q.1 == k') = true <;> simp [Function.comp, hq]
    rw [List.find?_map, hcomp]
    by_cases hk : (k' == k) = true
    · rw [if_pos hk]
      have hk' : k' = k := by simpa using hk
      rcases List.any_eq_true.mp ha with ⟨qe, hqe, hqk⟩
      have hsome : (List.find? (fun q => q.1 == k) d).isSome = true := by
        rw [List.find?_isSome]
        exact ⟨qe, hqe, by rw [← hk']; exact hqk⟩
      rcases Option.isSome_iff_exists.mp hsome with ⟨q0, hq0⟩
      have hq0k := List.find?_some hq0
      have hq0keq : q0.1 = k := by simpa using hq0k
      rw [hq0]
      simp [hq0keq, hk']
    · rw [if_neg hk]
      cases hq0 : List.find? (fun q => q.1 == k) d with
      | none => simp
      | some q0 =>
        have hq0kb := List.find?_some hq0
        have hq0k : q0.1 = k := by simpa using hq0kb
        have hq0k' : (q0.1 == k') = false := by
          cases hbe : (q0.1 == k')
          · rfl
          · exfalso
            have h1 : q0.1 = k' := by simpa using hbe
            rw [hq0k] at h1
            subst h1
            exact hk (by simp)
        have hne : q0.1 ≠ k' := by simpa using hq0k'
        simp [hq0k', hne]
  · rw [if_neg ha]
    have hnone : List.find? (fun q => q.1 == k') d = none := by
      rw [List.find?_eq_none]
      intro x hx
      have ha' : d.any (fun q => q.1 == k') = false := by
        cases h' : d.any (fun q => q.1 == k')
        · rfl
        · exact absurd h' ha
      exact List.any_eq_false.mp ha' x hx
    rw [List.find?_append]
    by_cases hk : (k' == k) = true
    · have hk' : k' = k := by simpa using hk
      rw [if_pos hk]
      have hdnone : List.find? (fun q => q.1 == k) d = none := by
        rw [← hk']; exact hnone
      rw [hdnone]
      simp [List.find?, hk]
    · rw [if_neg hk]
      have h1 : List.find? (fun q => q.1 == k) [(k', v)] = none := by
        simp only [List.find?]
        rw [show ((k', v).1 == k) = false from by
          cases hbe : (k' == k); rfl; exact absurd hbe hk]
      rw [h1, Option.or_none]

/-- Folding dict insertions: a key's final binding is the value of the last
inserted pair with that key, or the initial dict's binding when none. -/
theorem lookup_foldUpsert :
    ∀ (ps d : List (List Char × List Char)) (k : List Char),
      lookupD k (ps.foldl (fun d p => dictUpsert d p.1 p.2) d) =
        optOr (((ps.filter (fun q => q.1 == k)).map (fun q => q.2)).getLast?)
          (lookupD k d) := by
  intro ps
  induction ps with
  | nil => intro d k; rfl
  | cons p ps ih =>
    intro d k
    rw [List.foldl_cons, ih]
    rw [lookupD_upsert]
    by_cases hp : (p.1 == k) = true
    · rw [if_pos hp]
      have hf : List.filter (fun q => q.1 == k) (p :: ps) =
          p :: List.filter (fun q => q.1 == k) ps := by
        simp [List.filter_cons, hp]
      rw [hf, List.map_cons]
      cases hlast : ((ps.filter (fun q => q.1 == k)).map (fun q => q.2)).getLast? with
      | none =>
        have : ps.filter (fun q => q.1 == k) = [] := by
          cases hfe : ps.filter (fun q => q.1 == k) with
          | nil => rfl
          | cons a as =>
            rw [hfe, List.map_cons] at hlast
            simp [List.getLast?_cons] at hlast
        rw [this]
        simp [optOr]
      | some a =>
        rw [List.getLast?_cons, hlast]
        simp [optOr]
    · rw [if_neg hp]
      have hf : List.filter (fun q => q.1 == k) (p :: ps) =
          List.filter (fun q => q.1 == k) ps := by
        simp [List.filter_cons, hp]
      rw [hf]

/-- Upsert preserves distinctness of keys. -/
theorem upsert_keys_nodup (d : List (List Char × List Char)) (k v : List Char)
    (h : (d.map (fun q => q.1)).Nodup) :
    ((dictUpsert d k v).map (fun q => q.1)).Nodup := by
  unfold dictUpsert
  by_cases ha : d.any (fun q => q.1 == k) = true
  · rw [if_pos ha]
    have hkeys : (d.map (fun q => if q.1 == k then (q.1, v) else q)).map
        (fun q => q.1) = d.map (fun q => q.1) := by
      rw [List.map_map]
      apply List.map_congr_left
      intro q hq
      by_cases hqk : (q.1 == k) = true <;> simp [Function.comp, hqk]
    rw [hkeys]
    exact h
  · rw [if_neg ha]
    rw [List.map_append]
    rw [List.nodup_append]
    refine ⟨h, by simp, ?_⟩
    intro x hx hx'
    have hxk : x = k := by simpa using hx'
    have ha' : d.any (fun q => q.1 == k) = false := by
      cases h' : d.any (fun q => q.1 == k)
      · rfl
      · exact absurd h' ha
    rcases List.mem_map.mp hx with ⟨q, hq, hq1⟩
    have hnq := List.any_eq_false.mp ha' q hq
    rw [hq1, hxk] at hnq
    simp at hnq

/-- Keys of the extracted mapping are distinct. -/
theorem extract_keys_nodup_fold :
    ∀ (ps d : List (List Char × List Char)),
      (d.map (fun q => q.1)).Nodup →
      ((ps.foldl (fun d p => dictUpsert d p.1 p.2) d).map (fun q => q.1)).Nodup := by
  intro ps
  induction ps with
  | nil => intro d h; exact h
  | cons p ps ih =>
    intro d h
    rw [List.foldl_cons]
    exact ih _ (upsert_keys_nodup d p.1 p.2 h)

/-- In a dict with distinct keys, a key that occurs occurs exactly once. -/
theorem countP_key_eq_one (d : List (List Char × List Char)) (k : List Char)
    (hnd : (d.map (fun q => q.1)).Nodup) (q0 : List Char × List Char)
    (hmem : q0 ∈ d) (hq0 : q0.1 = k) :
    d.countP (fun q => q.1 == k) = 1 := by
  induction d with
  | nil => cases hmem
  | cons p d' ih =>
    rw [List.map_cons, List.nodup_cons] at hnd
    rw [List.countP_cons]
    rcases List.mem_cons.mp hmem with rfl | hmem'
    · have hzero : d'.countP (fun q => q.1 == k) = 0 := by
        rw [List.countP_eq_zero]
        intro q hq hq'
        have hqk : q.1 = k := by simpa using hq'
        exact hnd.1 (by
          rw [hq0, ← hqk]
          exact List.mem_map.mpr ⟨q, hq, rfl⟩)
      rw [hzero]
      simp [hq0]
    · have hp : (p.1 == k) = false := by
        cases hbe : (p.1 == k)
        · rfl
        · exfalso
          have h1 : p.1 = k := by simpa using hbe
          exact hnd.1 (by
            rw [h1, ← hq0]
            exact List.mem_map.mpr ⟨q0, hmem', rfl⟩)
      rw [ih hnd.2 hmem']
      simp [hp]

/-- C4: when exactly two matching records share a normalized display name
(with different URLs), the extracted mapping holds exactly one entry under
that name, bound to the URL of the later record in document order. -/
theorem claim_c4_last_write_wins (doc k u₁ u₂ : List Char)
    (hfil : (cleanedPairs doc).filter (fun q => q.1 == k) = [(k, u₁), (k, u₂)])
    (_hne : u₁ ≠ u₂) :
    (extract_m3u_links_with_names doc).countP (fun q => q.1 == k) = 1 ∧
      lookupD k (extract_m3u_links_with_names doc) = some u₂ := by
  have hlook : lookupD k (extract_m3u_links_with_names doc) = some u₂ := by
    unfold extract_m3u_links_with_names
    rw [lookup_foldUpsert, hfil]
    simp [optOr, List.getLast?_cons]
  refine ⟨?_, hlook⟩
  have hnodup := extract_keys_nodup_fold (cleanedPairs doc) [] (by simp)
  unfold lookupD at hlook
  rcases Option.map_eq_some'.mp hlook with ⟨q0, hq0, hq0v⟩
  have hq0k : q0.1 = k := by simpa using List.find?_some hq0
  exact countP_key_eq_one _ k hnodup q0 (List.mem_of_find?_eq_some hq0) hq0k

/-- C4 witness at a concrete document holding two records that share the
display name `A` with different URLs. -/
theorem claim_c4_witness :
    (extract_m3u_links_with_names
        (("<td>A</td><code>https://a.m3u</code>\n<td>A</td><code>https://b.m3u</code>").toList)).countP
        (fun q => q.1 == ("A").toList) = 1 ∧
      lookupD (("A").toList)
        (extract_m3u_links_with_names
          (("<td>A</td><code>https://a.m3u</code>\n<td>A</td><code>https://b.m3u</code>").toList)) =
        some (("https://b.m3u").toList) :=
  claim_c4_last_write_wins
    (("<td>A</td><code>https://a.m3u</code>\n<td>A</td><code>https://b.m3u</code>").toList)
    (("A").toList) (("https://a.m3u").toList) (("https://b.m3u").toList)
    (by decide) (by decide)

/-- Dropping a literal off itself-plus-rest succeeds. -/
theorem dropLit_self : ∀ (pat x : List Char), dropLit pat (pat ++ x) = some x
  | [], _ => rfl
  | p :: ps, x => by simp [dropLit, dropLit_self ps x]

/-- A string made of the pattern plus a rest starts with the pattern. -/
theorem startsWithL_append (pat x : List Char) :
    startsWithL pat (pat ++ x) = true := by
  simp [startsWithL, dropLit_self]

theorem m3u_tail_nonspace :
    ∀ c ∈ (((".m3u").toList) : List Char), isPySpace c = false := by decide

theorem m3u8_tail_nonspace :
    ∀ c ∈ (((".m3u8").toList) : List Char), isPySpace c = false := by decide

theorem https_nonspace :
    ∀ c ∈ ((("https://").toList) : List Char), isPySpace c = false := by decide

/-- The tail matcher only ever contributes `.m3u` or `.m3u8`. -/
theorem matchM3uEnd_tail (s : List Char) (res : List Char × List Char)
    (h : matchM3uEnd s = some res) :
    res.1 = (".m3u").toList ∨ res.1 = (".m3u8").toList := by
  unfold matchM3uEnd at h
  cases h1 : dropLit ((".m3u8</code>").toList) s with
  | some r1 =>
    rw [h1] at h
    injection h with h'
    rw [← h']
    right; rfl
  | none =>
    rw [h1] at h
    cases h2 : dropLit ((".m3u</code>").toList) s with
    | some r2 =>
      rw [h2] at h
      injection h with h'
      rw [← h']
      left; rfl
    | none => rw [h2] at h; cases h

/-- The greedy-plus backtracker yields a whitespace-free capture suffix that
ends in `.m3u` or `.m3u8`. -/
theorem tryUrlSplits_good :
    ∀ (kr given : List Char) (res : List Char × List Char),
      (∀ c ∈ kr, isPySpace c = false) →
      tryUrlSplits kr given = some res →
      (∀ c ∈ res.1, isPySpace c = false) ∧
        ((".m3u").toList <:+ res.1 ∨ (".m3u8").toList <:+ res.1) := by
  intro kr
  induction kr with
  | nil =>
    intro given res _ h
    cases h
  | cons c ks ih =>
    intro given res hkr h
    unfold tryUrlSplits at h
    cases hm : matchM3uEnd given with
    | some pr =>
      rcases pr with ⟨tail, r⟩
      rw [hm] at h
      dsimp only at h
      have hres : res = ((c :: ks).reverse ++ tail, r) := by
        injection h with h'; exact h'.symm
      subst hres
      constructor
      · intro ch hch
        rcases List.mem_append.mp hch with h1 | h1
        · exact hkr ch (List.mem_reverse.mp h1)
        · rcases matchM3uEnd_tail given (tail, r) hm with ht | ht
          · exact m3u_tail_nonspace ch (by rw [← ht]; exact h1)
          · exact m3u8_tail_nonspace ch (by rw [← ht]; exact h1)
      · rcases matchM3uEnd_tail given (tail, r) hm with ht | ht
        · left
          rw [show tail = (".m3u").toList from ht]
          exact List.suffix_append _ _
        · right
          rw [show tail = (".m3u8").toList from ht]
          exact List.suffix_append _ _
    | none =>
      rw [hm] at h
      dsimp only at h
      exact ih (c :: given) res (fun x hx => hkr x (by simp [hx])) h

/-- Shape of the `[^\s]+\.m3u(?:8)?</code>` match. -/
theorem tryUrl_good (s : List Char) (res : List Char × List Char)
    (h : tryUrl s = some res) :
    (∀ c ∈ res.1, isPySpace c = false) ∧
      ((".m3u").toList <:+ res.1 ∨ (".m3u8").toList <:+ res.1) := by
  unfold tryUrl at h
  refine tryUrlSplits_good _ _ res ?_ h
  intro c hc
  have h1 := List.mem_takeWhile_imp (List.mem_reverse.mp hc)
  simpa using h1

/-- Any capture produced by one code-span attempt is a wellformed URL. -/
theorem codeAttempt_good (s : List Char) (res : List Char × List Char)
    (h : codeAttempt s = some res) : urlGood res.1 := by
  unfold codeAttempt at h
  cases h1 : dropLit (("<code>https://").toList) s with
  | none => rw [h1] at h; cases h
  | some r =>
    rw [h1] at h
    dsimp only at h
    cases h2 : tryUrl r with
    | none => rw [h2] at h; exact absurd h (by dsimp only; exact fun hh => Option.noConfusion hh)
    | some pr =>
      rw [h2] at h
      dsimp only at h
      rcases pr with ⟨body, after⟩
      have hres : res = (("https://").toList ++ body, after) := by
        injection h with h'; exact h'.symm
      subst hres
      have hb := tryUrl_good r (body, after) h2
      refine ⟨startsWithL_append _ _, ?_, ?_⟩
      · intro c hc
        rcases List.mem_append.mp hc with hc1 | hc1
        · exact https_nonspace c hc1
        · exact hb.1 c hc1
      · rcases hb.2 with hs | hs
        · left
          rw [List.isSuffixOf_iff_suffix]
          exact hs.trans (List.suffix_append _ _)
        · right
          rw [List.isSuffixOf_iff_suffix]
          exact hs.trans (List.suffix_append _ _)

/-- Any capture produced by the lazy scan for the code span is a wellformed
URL. -/
theorem matchCodePart_good :
    ∀ (s : List Char) (res : List Char × List Char),
      matchCodePart s = some res → urlGood res.1 := by
  intro s
  induction s with
  | nil => intro res h; cases h
  | cons c cs ih =>
    intro res h
    unfold matchCodePart at h
    cases h1 : codeAttempt (c :: cs) with
    | some r0 =>
      rw [h1] at h
      dsimp only at h
      injection h with h'
      exact codeAttempt_good (c :: cs) res (by rw [h1, h'])
    | none =>
      rw [h1] at h
      dsimp only at h
      by_cases hc : (c == '\n') = true
      · rw [if_pos hc] at h; cases h
      · rw [if_neg hc] at h
        exact ih res h

/-- Any URL group produced by the name-then-code matcher is wellformed. -/
theorem matchName_good :
    ∀ (s accRev : List Char) (res : List Char × List Char × List Char),
      matchName accRev s = some res → urlGood res.2.1 := by
  intro s
  induction s with
  | nil => intro accRev res h; cases h
  | cons c cs ih =>
    intro accRev res h
    unfold matchName at h
    by_cases hc : (c == '\n') = true
    · rw [if_pos hc] at h; cases h
    · rw [if_neg hc] at h
      cases h1 : dropLit (("</td>").toList) cs with
      | some r =>
        rw [h1] at h
        dsimp only at h
        cases h2 : matchCodePart r with
        | some pr =>
          rw [h2] at h
          dsimp only at h
          rcases pr with ⟨url, after⟩
          have hres : res = ((c :: accRev).reverse, url, after) := by
            injection h with h'; exact h'.symm
          subst hres
          exact matchCodePart_good r (url, after) h2
        | none =>
          rw [h2] at h
          dsimp only at h
          exact ih (c :: accRev) res h
      | none =>
        rw [h1] at h
        dsimp only at h
        exact ih (c :: accRev) res h

/-- Any URL group produced by an anchored full-pattern match is wellformed. -/
theorem matchTd_good (s : List Char) (res : List Char × List Char × List Char)
    (h : matchTd s = some res) : urlGood res.2.1 := by
  unfold matchTd at h
  cases h1 : dropLit (("<td>").toList) s with
  | none => rw [h1] at h; cases h
  | some r =>
    rw [h1] at h
    dsimp only at h
    exact matchName_good r [] res h

/-- Every URL in the scan result is wellformed. -/
theorem findallFuel_good :
    ∀ (fuel : Nat) (s : List Char) (p : List Char × List Char),
      p ∈ findallFuel fuel s → urlGood p.2 := by
  intro fuel
  induction fuel with
  | zero => intro s p hp; simp [findallFuel] at hp
  | succ n ih =>
    intro s p hp
    cases s with
    | nil => simp [findallFuel] at hp
    | cons c cs =>
      unfold findallFuel at hp
      cases hm : matchTd (c :: cs) with
      | some tr =>
        rcases tr with ⟨name, url, after⟩
        rw [hm] at hp
        dsimp only at hp
        rcases List.mem_cons.mp hp with rfl | hp'
        · exact matchTd_good (c :: cs) (name, url, after) hm
        · exact ih after p hp'
      | none =>
        rw [hm] at hp
        dsimp only at hp
        exact ih cs p hp

/-- The value of every binding the fold produces comes from the initial dict
or from the pushed pairs. -/
theorem fold_values_good (P : List Char → Prop) :
    ∀ (ps d : List (List Char × List Char)),
      (∀ q ∈ d, P q.2) → (∀ q ∈ ps, P q.2) →
      ∀ p ∈ ps.foldl (fun d p => dictUpsert d p.1 p.2) d, P p.2 := by
  intro ps
  induction ps with
  | nil => intro d hd _ p hp; exact hd p hp
  | cons q ps ih =>
    intro d hd hps p hp
    rw [List.foldl_cons] at hp
    refine ih (dictUpsert d q.1 q.2) ?_ (fun x hx => hps x (by simp [hx])) p hp
    intro x hx
    unfold dictUpsert at hx
    by_cases ha : d.any (fun r => r.1 == q.1) = true
    · rw [if_pos ha] at hx
      rcases List.mem_map.mp hx with ⟨y, hy, hyx⟩
      by_cases hyk : (y.1 == q.1) = true
      · rw [← hyx]
        simp only [hyk, if_true]
        exact hps q (by simp)
      · rw [← hyx]
        simp only [hyk, Bool.false_eq_true, if_false]
        exact hd y hy
    · rw [if_neg ha] at hx
      rcases List.mem_append.mp hx with h1 | h1
      · exact hd x h1
      · have hx1 : x = (q.1, q.2) := by simpa using h1
        rw [hx1]
        exact hps q (by simp)

/-- C10: every URL value in the extracted mapping starts with `https://`,
contains no whitespace character, and ends in `.m3u` or `.m3u8`. -/
theorem claim_c10_url_wellformed (doc : List Char)
    (p : List Char × List Char)
    (hp : p ∈ extract_m3u_links_with_names doc) : urlGood p.2 := by
  unfold extract_m3u_links_with_names at hp
  refine fold_values_good urlGood (cleanedPairs doc) [] (by simp) ?_ p hp
  intro q hq
  unfold cleanedPairs re_findall at hq
  rcases List.mem_map.mp hq with ⟨m, hm, hmq⟩
  rw [← hmq]
  exact findallFuel_good _ _ m hm

/-- C10 witness at a concrete document. -/
theorem claim_c10_witness : urlGood (("https://a.m3u").toList) :=
  claim_c10_url_wellformed (("<td>A</td><code>https://a.m3u</code>").toList)
    ((("A").toList), (("https://a.m3u").toList)) (by decide)

/-- The submission loop keeps exactly the names whose download succeeded. -/
theorem filterMap_download_eq (net : List Char × List Char → NetOutcome) :
    ∀ l : List (List Char × List Char),
      l.filterMap (fun p => (download_m3u_file (net p)).map (fun _ => p.1)) =
        (l.filter (fun p => (download_m3u_file (net p)).isSome)).map
          (fun p => p.1) := by
  intro l
  induction l with
  | nil => rfl
  | cons q l ih =>
    cases hq : download_m3u_file (net q) with
    | none => simp [List.filterMap_cons, List.filter_cons, hq, ih]
    | some f => simp [List.filterMap_cons, List.filter_cons, hq, ih]

/-- In a duplicate-free list an element is hit exactly once by its own
equality filter. -/
theorem filter_beq_length_one :
    ∀ (l : List (List Char × List Char)) (a : List Char × List Char),
      l.Nodup → a ∈ l → (l.filter (fun q => q == a)).length = 1 := by
  intro l
  induction l with
  | nil => intro a _ ha; cases ha
  | cons p l' ih =>
    intro a hnd ha
    rw [List.nodup_cons] at hnd
    rcases List.mem_cons.mp ha with rfl | ha'
    · have hz : l'.filter (fun q => q == a) = [] := by
        rw [List.filter_eq_nil_iff]
        intro q hq hqa
        exact hnd.1 (by rw [← show q = a from by simpa using hqa]; exact hq)
      rw [List.filter_cons]
      simp [hz]
    · have hpa : (p == a) = false := by
        cases hbe : (p == a)
        · rfl
        · exact absurd (by rw [show p = a from by simpa using hbe]; exact ha')
            hnd.1
      rw [List.filter_cons]
      simp [hpa]
      exact ih a hnd.2 ha'

/-- The empty document extracts to the empty mapping. -/
theorem extract_nil : extract_m3u_links_with_names [] = [] := rfl

/-- C7 (amended): the run produces no playlist output in exactly two
early-exit situations: fetch failure OR a successfully fetched empty text
end the run fatally (the code tests Python falsiness of the content), and a
nonempty text from which zero records are extracted ends it as nothing-to-do;
in both situations no download is attempted and nothing is processed. -/
theorem claim_c7_amended (readme : Option (List Char))
    (net : List Char × List Char → NetOutcome) :
    ((mainRun readme net).exit = ExitKind.fatalFetch ↔
      (readme = none ∨ readme = some [])) ∧
      ((mainRun readme net).exit = ExitKind.nothingToDo ↔
        ∃ c, readme = some c ∧ c ≠ [] ∧ extract_m3u_links_with_names c = []) ∧
      ((mainRun readme net).exit ≠ ExitKind.completed →
        (mainRun readme net).attempted = [] ∧ (mainRun readme net).processed = []) := by
  cases readme with
  | none => simp [mainRun]
  | some content =>
    by_cases hce : content.isEmpty = true
    · have hc : content = [] := by simpa [List.isEmpty_iff] using hce
      subst hc
      simp [mainRun]
    · have hcne : content ≠ [] := by
        intro hc; subst hc; simp at hce
      by_cases hle : (extract_m3u_links_with_names content).isEmpty = true
      · have hl : extract_m3u_links_with_names content = [] := by
          simpa [List.isEmpty_iff] using hle
        refine ⟨by simp [mainRun, hce, hle, hcne], ?_, by simp [mainRun, hce, hle]⟩
        simp only [mainRun, hce, hle]
        simp [hcne, hl]
      · have hl : extract_m3u_links_with_names content ≠ [] := by
          intro h0; rw [h0] at hle; simp at hle
        refine ⟨by simp [mainRun, hce, hle, hcne], ?_, by simp [mainRun, hce, hle]⟩
        simp only [mainRun, hce, hle]
        simp [hcne, hl]

/-- C7 counterexample: a successful fetch of empty text extracts zero records
but is routed through the fatal fetch-failure exit, not the nothing-to-do
exit the claim requires for a successful fetch with an empty mapping. -/
theorem claim_c7_counterexample :
    extract_m3u_links_with_names [] = [] ∧
      (mainRun (some []) (fun _ => NetOutcome.netError)).exit =
        ExitKind.fatalFetch ∧
      ExitKind.fatalFetch ≠ ExitKind.nothingToDo :=
  ⟨rfl, rfl, by decide⟩

/-- C7 amended-claim witness: a nonempty no-record text takes the
nothing-to-do exit. -/
theorem claim_c7_witness :
    (mainRun (some (("x").toList)) (fun _ => NetOutcome.netError)).exit =
      ExitKind.nothingToDo :=
  ((claim_c7_amended (some (("x").toList))
      (fun _ => NetOutcome.netError)).2.1).mpr
    ⟨("x").toList, rfl, by decide, by decide⟩

/-- C8 counterexample: a record whose display name normalizes to the empty
string still yields a mapping entry under the empty name, and the
orchestrator processes it instead of skipping it. -/
theorem claim_c8_counterexample :
    extract_m3u_links_with_names
        (("<td>!</td><code>https://a.m3u</code>").toList) =
      [([], ("https://a.m3u").toList)] ∧
      ([] : List Char) ∈
        (mainRun (some (("<td>!</td><code>https://a.m3u</code>").toList))
          (fun _ => NetOutcome.ok 200 [])).processed := by
  refine ⟨by decide, by decide⟩

/-- C8 (amended): the extractor does not guarantee nonempty names and the
orchestrator applies no name-validity check: every extracted record whose
download succeeds has its name processed, the empty name included. -/
theorem claim_c8_amended (content : List Char)
    (net : List Char × List Char → NetOutcome) (p : List Char × List Char)
    (hp : p ∈ extract_m3u_links_with_names content)
    (hdl : (download_m3u_file (net p)).isSome = true) :
    p.1 ∈ (mainRun (some content) net).processed := by
  have hcne : content ≠ [] := by
    intro hc
    subst hc
    rw [extract_nil] at hp
    cases hp
  have h1 : content.isEmpty = false := by
    cases content
    · exact absurd rfl hcne
    · exact List.isEmpty_cons
  have hlinks : (extract_m3u_links_with_names content).isEmpty = false := by
    cases hl : extract_m3u_links_with_names content with
    | nil => rw [hl] at hp; cases hp
    | cons a as => exact List.isEmpty_cons
  simp only [mainRun, h1, hlinks]
  simp only [Bool.false_eq_true, if_false]
  refine List.mem_filterMap.mpr ⟨p, hp, ?_⟩
  rcases Option.isSome_iff_exists.mp hdl with ⟨f, hf⟩
  simp [hf]

/-- C8 amended-claim witness: the empty name is processed on a concrete
document. -/
theorem claim_c8_witness :
    ([] : List Char) ∈
      (mainRun (some (("<td>!</td><code>https://b.m3u</code>").toList))
        (fun _ => NetOutcome.ok 200 [])).processed :=
  claim_c8_amended (("<td>!</td><code>https://b.m3u</code>").toList)
    (fun _ => NetOutcome.ok 200 []) (([], ("https://b.m3u").toList))
    (by decide) (by decide)

/-- C6: if the download fails for exactly one extracted record, the run still
completes, the failed name is skipped, and processing tasks are submitted for
exactly the remaining N-1 records, in order. -/
theorem claim_c6_download_isolation (content : List Char)
    (net : List Char × List Char → NetOutcome) (p₀ : List Char × List Char)
    (hp₀ : p₀ ∈ extract_m3u_links_with_names content)
    (hfail : ∀ p ∈ extract_m3u_links_with_names content,
      (download_m3u_file (net p) = none ↔ p = p₀)) :
    (mainRun (some content) net).exit = ExitKind.completed ∧
      (mainRun (some content) net).processed =
        ((extract_m3u_links_with_names content).filter
          (fun p => !(p == p₀))).map (fun p => p.1) ∧
      p₀.1 ∉ (mainRun (some content) net).processed ∧
      (mainRun (some content) net).processed.length + 1 =
        (extract_m3u_links_with_names content).length := by
  have hcne : content ≠ [] := by
    intro hc
    subst hc
    rw [extract_nil] at hp₀
    cases hp₀
  have h1 : content.isEmpty = false := by
    cases content
    · exact absurd rfl hcne
    · exact List.isEmpty_cons
  have hlinks : (extract_m3u_links_with_names content).isEmpty = false := by
    cases hl : extract_m3u_links_with_names content with
    | nil => rw [hl] at hp₀; cases hp₀
    | cons a as => exact List.isEmpty_cons
  have hkeysnd : ((extract_m3u_links_with_names content).map
      (fun q => q.1)).Nodup :=
    extract_keys_nodup_fold (cleanedPairs content) [] (by simp)
  have hnd : (extract_m3u_links_with_names content).Nodup :=
    List.Nodup.of_map _ hkeysnd
  have hproc : (mainRun (some content) net).processed =
      ((extract_m3u_links_with_names content).filter
        (fun p => !(p == p₀))).map (fun p => p.1) := by
    simp only [mainRun, h1, hlinks, Bool.false_eq_true, if_false]
    rw [filterMap_download_eq]
    refine congrArg (List.map _) (List.filter_congr ?_)
    intro p hp
    have h := hfail p hp
    cases hd : download_m3u_file (net p) with
    | none =>
      have hpe : p = p₀ := h.mp hd
      simp [hpe]
    | some f =>
      have hne : p ≠ p₀ := by
        intro he
        rw [h.mpr he] at hd
        cases hd
      simp [hne]
  have hexit : (mainRun (some content) net).exit = ExitKind.completed := by
    simp [mainRun, h1, hlinks]
  refine ⟨hexit, hproc, ?_, ?_⟩
  · rw [hproc]
    intro hmem
    rcases List.mem_map.mp hmem with ⟨q, hq, hq1⟩
    have hq2 := List.of_mem_filter hq
    have hq3 : q ∈ extract_m3u_links_with_names content :=
      List.mem_of_mem_filter hq
    have : q = p₀ := List.inj_on_of_nodup_map hkeysnd hq3 hp₀ hq1
    rw [this] at hq2
    simp at hq2
  · rw [hproc, List.length_map]
    have hperm := (List.filter_append_perm (fun p => p == p₀)
      (extract_m3u_links_with_names content)).length_eq
    rw [List.length_append] at hperm
    have hone := filter_beq_length_one _ p₀ hnd hp₀
    omega

/-- C6 witness: with two extracted playlists and the download failing exactly
for `A`, the run completes and exactly `B` is processed. -/
theorem claim_c6_witness :
    (mainRun
        (some (("<td>A</td><code>https://a.m3u</code>\n<td>B</td><code>https://b.m3u</code>").toList))
        (fun p => if p.1 == ("A").toList then NetOutcome.netError
          else NetOutcome.ok 200 [])).exit = ExitKind.completed ∧
      (mainRun
        (some (("<td>A</td><code>https://a.m3u</code>\n<td>B</td><code>https://b.m3u</code>").toList))
        (fun p => if p.1 == ("A").toList then NetOutcome.netError
          else NetOutcome.ok 200 [])).processed = [("B").toList] := by
  have h := claim_c6_download_isolation
    (("<td>A</td><code>https://a.m3u</code>\n<td>B</td><code>https://b.m3u</code>").toList)
    (fun p => if p.1 == ("A").toList then NetOutcome.netError
      else NetOutcome.ok 200 [])
    ((("A").toList), (("https://a.m3u").toList))
    (by decide) (by decide)
  refine ⟨h.1, ?_⟩
  rw [h.2.1]
  decide
